import Mathlib

/-!
Shallow embedding of the Zotero-export conversion and analysis pipeline
(`convert_zotero.py` and `analysis.py`).

Python strings are modelled as `List Char` (`Str`), so that every string
operation of the source is an executable, structurally recursive Lean
function faithful to Python semantics (splits keep empty pieces, `strip`
removes whitespace at both ends, `in` is substring containment, `lower`
maps `Char.toLower`).  Python dicts of string fields are association
lists; the filesystem under the candidate root is the list of existing
relative paths (each a list of components); file copying and directory
creation are recorded explicitly in the result of the organizing step.
Text extraction performed by external libraries (PyPDF2, BeautifulSoup)
is an oracle `Str → Except Str Str`; `Except.error` models a raised
exception.
-/

/-- Python `str` as a list of characters. -/
abbrev Str := List Char

/-- Python `str.lower()` (`Char.toLower`, as in CPython for ASCII). -/
def toLowerStr (s : Str) : Str := s.map Char.toLower

/-- Whitespace test used by Python `strip()` / `split()`. -/
def isWs (c : Char) : Bool := c.isWhitespace

/-- Python `str.strip()`: drop whitespace from both ends. -/
def pyStrip (s : Str) : Str :=
  ((s.dropWhile isWs).reverse.dropWhile isWs).reverse

/-- Python `str.split(d)` for a one-character separator `d`: split at every
occurrence, keeping empty pieces. -/
def pySplit (d : Char) : Str → List Str
  | [] => [[]]
  | c :: rest =>
    if c = d then [] :: pySplit d rest
    else
      match pySplit d rest with
      | [] => [[c]]
      | p :: ps => (c :: p) :: ps

/-- Worker for `pyWords` carrying the current (reversed) word. -/
def pyWordsAux (cur : Str) : Str → List Str
  | [] => if cur.isEmpty then [] else [cur.reverse]
  | c :: rest =>
    if isWs c then
      if cur.isEmpty then pyWordsAux [] rest
      else cur.reverse :: pyWordsAux [] rest
    else pyWordsAux (c :: cur) rest

/-- Python `str.split()` with no argument: split on whitespace runs,
discarding empty pieces. -/
def pyWords (s : Str) : List Str := pyWordsAux [] s

/-- Worker for `pySplitSeq`, fuelled to stay structurally recursive; the
fuel is the length of the string being split, which one character per
step always suffices for. -/
def pySplitSeqGo (sep : Str) : Nat → Str → Str → List Str
  | 0, cur, _ => [cur.reverse]
  | _ + 1, cur, [] => [cur.reverse]
  | fuel + 1, cur, c :: rest =>
    if sep.isPrefixOf (c :: rest) then
      cur.reverse :: pySplitSeqGo sep fuel [] (rest.drop (sep.length - 1))
    else pySplitSeqGo sep fuel (c :: cur) rest

/-- Python `str.split(sep)` for a multi-character separator `sep`
(used by the source for `split(' and ')`). -/
def pySplitSeq (sep : Str) (s : Str) : List Str :=
  pySplitSeqGo sep s.length [] s

/-- Python `sub in s` substring containment on strings. -/
def isInfixB (sub : Str) : Str → Bool
  | [] => sub.isEmpty
  | c :: rest => sub.isPrefixOf (c :: rest) || isInfixB sub rest

/-- Python `';'.join(ts)`-style join with a one-character separator. -/
def joinWith (d : Char) : List Str → Str
  | [] => []
  | t :: ts =>
    match ts with
    | [] => t
    | _ :: _ => t ++ d :: joinWith d ts

/-- Decimal digit string of a natural number, fuelled worker
(`n + 1` fuel always suffices). -/
def natStrGo : Nat → Nat → Str → Str
  | 0, _, acc => acc
  | fuel + 1, n, acc =>
    let d := Nat.digitChar (n % 10)
    if n < 10 then d :: acc else natStrGo fuel (n / 10) (d :: acc)

/-- Decimal rendering of a natural number, as Python's `f"{i}"`. -/
def natStr (n : Nat) : Str := natStrGo (n + 1) n []

/-- Left-fold decimal parser, inverse of `natStr` (proof device). -/
def digitVal (c : Char) : Nat := c.toNat - 48

/-- Value of a digit string under the usual left fold. -/
def parseNat (s : Str) : Nat := s.foldl (fun a c => a * 10 + digitVal c) 0

/-- A bibliographic entry: the field mapping produced by the BibTeX
parser (`bibtexparser` is an external input producer).  Keys include the
ordinary fields plus `ID` and `ENTRYTYPE`. -/
abbrev Entry := List (String × Str)

/-- Python `key in entry` / `entry[key]` combined: the value bound to a
key, if present. -/
def eGet (e : Entry) (k : String) : Option Str :=
  (e.find? (fun kv => kv.1 == k)).map (·.2)

/-- Python `entry.get(key, d)`. -/
def eGetD (e : Entry) (k : String) (d : Str) : Str := (eGet e k).getD d

/-- A file under the candidate files root, as its list of relative path
components (the last component is the file name). -/
abbrev FPath := List Str

/-- `Path.name`: final component of a path. -/
def pathName (p : FPath) : Str := (p.getLast?).getD []

/-- Interpret a relative path string from the `file` field as a
component list (`pathlib` parsing of `"files/ABC/x.pdf"`). -/
def strToPath (s : Str) : FPath := pySplit '/' s

/-- One parsed `filename:path:mimetype` tuple of a Zotero `file` field. -/
structure ZFile where
  filename : Str
  path : Str
deriving DecidableEq

/-- `parse_zotero_file_field` of `convert_zotero.py`: split the field on
`;`; for each part containing `:`, split on `:` and keep the stripped
filename and path when both are nonempty. -/
def parse_zotero_file_field (ff : Str) : List ZFile :=
  (pySplit ';' ff).flatMap fun part =>
    match pySplit ':' part with
    | c0 :: c1 :: _ =>
      let fn := pyStrip c0
      let p := pyStrip c1
      if fn ≠ [] ∧ p ≠ [] then [⟨fn, p⟩] else []
    | _ => []

/-- The literal `".pdf"`. -/
def dotPdf : Str := ".pdf".toList

/-- The literal `".html"`. -/
def dotHtml : Str := ".html".toList

/-- Method 1 of `find_pdf_in_files_folder`: for each tuple of the `file`
field whose filename ends (lower-cased) in `.pdf`, take the given
relative path if it exists under the root, otherwise every file anywhere
under the root whose name equals the tuple's filename
(`files_path.glob(f"**/{filename}")` with a literal filename). -/
def strategyA (e : Entry) (fs : List FPath) : List FPath :=
  match eGet e "file" with
  | none => []
  | some ff =>
    (parse_zotero_file_field ff).flatMap fun fi =>
      if dotPdf.isSuffixOf (toLowerStr fi.filename) then
        if strToPath fi.path ∈ fs then [strToPath fi.path]
        else fs.filter (fun q => pathName q = fi.filename)
      else []

/-- Method 2 of `find_pdf_in_files_folder`: over every `**/*.pdf` file
under the root, accept it if the entry's `ID` occurs (lower-cased) in
the file name, or one of the first three title words longer than three
characters does. -/
def strategyB (e : Entry) (fs : List FPath) : List FPath :=
  let entry_id := eGetD e "ID" []
  let title := eGetD e "title" []
  let title_words := (((pyWords title).filter (fun w => 3 < w.length)).map toLowerStr).take 3
  (fs.filter (fun q => dotPdf.isSuffixOf (pathName q))).filter fun q =>
    let fl := toLowerStr (pathName q)
    (!entry_id.isEmpty && isInfixB (toLowerStr entry_id) fl) ||
    (!title.isEmpty && title_words.any (fun w => isInfixB w fl))

/-- `find_pdf_in_files_folder` of `convert_zotero.py`.  `files_dir` is
`none` when the files folder does not exist (the guard returns `[]`),
otherwise the list of files existing under it.  Method 2 runs only when
Method 1 collected nothing. -/
def find_pdf_in_files_folder (e : Entry) (files_dir : Option (List FPath)) : List FPath :=
  match files_dir with
  | none => []
  | some fs =>
    let found := strategyA e fs
    if found.isEmpty then strategyB e fs else found

/-- The tag-bearing fields scanned by `extract_tags_from_entry`. -/
def tag_fields : List String := ["keywords", "mendeley-tags", "tags", "annote"]

/-- The delimiter priority list of `extract_tags_from_entry`. -/
def delimiters : List Char := [';', ',', '\n', '|']

/-- The per-field body of `extract_tags_from_entry`: split on the first
delimiter of the priority list occurring in the text, strip the pieces
and drop empty ones; if no delimiter occurs, the stripped text is a
single tag when nonempty. -/
def tagsFromField (t : Str) : List Str :=
  match delimiters.find? (fun d => t.contains d) with
  | some d => ((pySplit d t).map pyStrip).filter (fun x => x ≠ [])
  | none => if pyStrip t ≠ [] then [pyStrip t] else []

/-- Lexicographic (code point) order on strings, Python `<=` used by
`sorted`. -/
def lexLe : Str → Str → Bool
  | [], _ => true
  | _ :: _, [] => false
  | a :: xs, b :: ys => if a < b then true else if b < a then false else lexLe xs ys

/-- The order `sorted` sorts by, as a relation. -/
def tagLe (a b : Str) : Prop := lexLe a b = true

instance : DecidableRel tagLe :=
  fun a b => inferInstanceAs (Decidable (lexLe a b = true))

/-- Python `sorted` on a list of strings. -/
def sortTags (l : List Str) : List Str := List.insertionSort tagLe l

/-- `extract_tags_from_entry` of `convert_zotero.py`: union the tags of
every tag-bearing field present (a Python `set`, modelled by `dedup`),
returned sorted. -/
def extract_tags_from_entry (e : Entry) : List Str :=
  let all := tag_fields.flatMap fun f =>
    match eGet e f with
    | some t => tagsFromField t
    | none => []
  sortTags all.dedup

/-- Presenting a normalized tag set back as one tag-bearing field value,
joined with the primary delimiter (`';'.join(tags)`). -/
def joinTags (ts : List Str) : Str := joinWith ';' ts

/-- The entry-type table of `categorize_entry`. -/
def category_table : List (Str × Str) :=
  [("article".toList, "journal_articles".toList),
   ("inproceedings".toList, "conference_papers".toList),
   ("proceedings".toList, "conference_papers".toList),
   ("book".toList, "books".toList),
   ("incollection".toList, "book_chapters".toList),
   ("inbook".toList, "book_chapters".toList),
   ("techreport".toList, "reports".toList),
   ("report".toList, "reports".toList),
   ("phdthesis".toList, "theses".toList),
   ("mastersthesis".toList, "theses".toList),
   ("thesis".toList, "theses".toList),
   ("patent".toList, "patents".toList),
   ("misc".toList, "miscellaneous".toList),
   ("unpublished".toList, "preprints".toList),
   ("online".toList, "web_resources".toList),
   ("webpage".toList, "web_resources".toList),
   ("software".toList, "software".toList),
   ("dataset".toList, "datasets".toList)]

/-- `categorize_entry` of `convert_zotero.py`. -/
def categorize_entry (e : Entry) : Str :=
  let et := toLowerStr (eGetD e "ENTRYTYPE" [])
  ((category_table.find? (fun kv => kv.1 == et)).map (·.2)).getD ("uncategorized".toList)

/-- Characters removed by `re.sub(r'[<>:"/\\|?*]', '', text)`. -/
def badChars : List Char := ['<', '>', ':', '"', '/', '\\', '|', '?', '*']

/-- ASCII reading of the regex class `\w` (the inputs of this pipeline
are ASCII). -/
def isWordChar (c : Char) : Bool := c.isAlphanum || c = '_'

/-- `re.sub(r'\s+', '_', text)`: each maximal whitespace run becomes one
underscore; the flag records whether we are inside a run. -/
def squashWsAux (inRun : Bool) : Str → Str
  | [] => []
  | c :: rest =>
    if isWs c then
      if inRun then squashWsAux true rest else '_' :: squashWsAux true rest
    else c :: squashWsAux false rest

/-- Replace whitespace runs by single underscores. -/
def squashWs (s : Str) : Str := squashWsAux false s

/-- `clean_filename` of `convert_zotero.py`. -/
def clean_filename (text : Str) : Str :=
  if text.isEmpty then "untitled".toList
  else
    let t1 := text.filter (fun c => !badChars.contains c)
    let t2 := squashWs t1
    let t3 := t2.filter (fun c => isWordChar c || isWs c || c = '-')
    t3.take 80

/-- The separator `" and "` of BibTeX author lists. -/
def sepAnd : Str := " and ".toList

/-- The first-author computation of `organize_pdf_files`: first author
of the author field, then the surname; `none` models the `IndexError`
Python raises on `split()[-1]` of a wordless author string. -/
def first_author_of (author_text : Str) : Option Str :=
  let fa :=
    if isInfixB sepAnd author_text then (pySplitSeq sepAnd author_text).headD []
    else (pySplit ',' author_text).headD []
  if fa.contains ',' then some (pyStrip ((pySplit ',' fa).headD []))
  else (pyWords fa).getLast?

/-- The target directory of `organize_pdf_files`, relative to the output
root: `documents/<category>/<year-or-"unknown">`. -/
def target_dir_of (e : Entry) : Str :=
  "documents/".toList ++ categorize_entry e ++ ['/'] ++ eGetD e "year" ("unknown".toList)

/-- The base file name of `organize_pdf_files`:
`f"{first_author}_{year}_{title}"` with the cleaned first-author surname
(empty if the entry has no author) and cleaned title. -/
def base_filename_of (e : Entry) : Option Str :=
  let year := eGetD e "year" ("unknown".toList)
  let fa? : Option Str :=
    match eGet e "author" with
    | some a => (first_author_of a).map clean_filename
    | none => some []
  match fa? with
  | none => none
  | some fa =>
    let title := clean_filename (eGetD e "title" ("untitled".toList))
    some (fa ++ ['_'] ++ year ++ ['_'] ++ title)

/-- The observable outcome of `organize_pdf_files`: the returned list of
relative paths, the `shutil.copy2` actions performed (source file,
relative target path), and the directories created by `mkdir`. -/
structure OrganizeResult where
  organized : List Str
  copies : List (FPath × Str)
  dirsCreated : List Str
deriving DecidableEq

/-- `organize_pdf_files` of `convert_zotero.py`.  An empty file list
returns before any filesystem effect.  One file is named
`<base>.pdf`; several get `_1`, `_2`, … suffixes (`i+1` over
`enumerate`).  `none` models the `IndexError` of the author surname
computation. -/
def organize_pdf_files (pdf_files : List FPath) (e : Entry) : Option OrganizeResult :=
  if pdf_files.isEmpty then some ⟨[], [], []⟩
  else
    match base_filename_of e with
    | none => none
    | some base =>
      let tdir := target_dir_of e
      let name := fun (i : Nat) =>
        if 1 < pdf_files.length then base ++ ['_'] ++ natStr (i + 1) ++ dotPdf
        else base ++ dotPdf
      some ⟨(List.range pdf_files.length).map fun i => tdir ++ ['/'] ++ name i,
            pdf_files.enum.map fun pr => (pr.2, tdir ++ ['/'] ++ name pr.1),
            [tdir]⟩

/-- The identifier given to the document record at position `i` of the
conversion loop: `entry.get('ID', f"doc_{i}")`. -/
def idOf (i : Nat) (e : Entry) : Str :=
  match eGet e "ID" with
  | some s => s
  | none => "doc_".toList ++ natStr i

/-- The identifiers of the records built from `entries[i:]` when the
enumeration counter stands at `i`. -/
def docIdsFrom (i : Nat) : List Entry → List Str
  | [] => []
  | e :: rest => idOf i e :: docIdsFrom (i + 1) rest

/-- The identifiers of all document records one conversion run of
`process_bibtex_export` builds, in order. -/
def docIds (es : List Entry) : List Str := docIdsFrom 0 es

/-- The fixed keyword list of `analysis.py`. -/
def KEYWORDS : List Str :=
  ["environment", "climate", "energy", "sustainability",
   "carbon", "emission", "renewable", "net zero", "green"].map String.toList

/-- The metadata fields scanned by `document_references_environment`. -/
def SEARCH_FIELDS : List String := ["title", "abstract", "note", "extra_keywords"]

/-- A persisted document record as `analysis.py` reads it: its string
metadata fields, its tag list and its relative file paths. -/
structure Doc where
  fields : List (String × Str)
  tags : List Str
  file_paths : List Str

/-- Python `doc.get(field, '')` for a string field. -/
def dGet (d : Doc) (k : String) : Str :=
  ((d.fields.find? (fun kv => kv.1 == k)).map (·.2)).getD []

/-- `extract_text_from_pdf` of `analysis.py`: the oracle `rp` models the
PyPDF2 read and per-page extraction; a raised exception (`Except.error`)
is caught and yields the empty string. -/
def extract_text_from_pdf (rp : Str → Except Str Str) (p : Str) : Str :=
  match rp p with
  | .ok t => t
  | .error _ => []

/-- `extract_text_from_html` of `analysis.py`: the oracle `rh` models
the file read and BeautifulSoup text extraction; a raised exception is
caught and yields the empty string. -/
def extract_text_from_html (rh : Str → Except Str Str) (p : Str) : Str :=
  match rh p with
  | .ok t => t
  | .error _ => []

/-- `os.path.join('AIPolicies_db', rel.replace('\\', '/'))`. -/
def absPathOf (rel : Str) : Str :=
  let r := rel.map (fun c => if c = '\\' then '/' else c)
  match r with
  | '/' :: _ => r
  | _ => "AIPolicies_db/".toList ++ r

/-- `extract_fulltext_from_files` of `analysis.py`: concatenate, over
the document's relative paths, the extracted text of each `.pdf` or
`.html` file followed by a newline; other extensions contribute
nothing. -/
def extract_fulltext_from_files (rp rh : Str → Except Str Str) : List Str → Str
  | [] => []
  | rel :: rest =>
    let ap := absPathOf rel
    (if dotPdf.isSuffixOf (toLowerStr ap) then extract_text_from_pdf rp ap ++ ['\n']
     else if dotHtml.isSuffixOf (toLowerStr ap) then extract_text_from_html rh ap ++ ['\n']
     else []) ++ extract_fulltext_from_files rp rh rest

/-- The metadata loop of `document_references_environment`: some search
field is present, nonempty, and contains some keyword lower-cased. -/
def metadataMatches (doc : Doc) : Bool :=
  SEARCH_FIELDS.any fun f =>
    let v := dGet doc f
    !v.isEmpty && KEYWORDS.any (fun kw => isInfixB kw (toLowerStr v))

/-- The full-text scan of `document_references_environment`. -/
def fulltextMatches (rp rh : Str → Except Str Str) (doc : Doc) : Bool :=
  KEYWORDS.any fun kw =>
    isInfixB kw (toLowerStr (extract_fulltext_from_files rp rh doc.file_paths))

/-- `document_references_environment` of `analysis.py`: metadata first;
only if no metadata field matches and the file list is nonempty, scan
the concatenated extracted full text. -/
def document_references_environment (rp rh : Str → Except Str Str) (doc : Doc) : Bool :=
  if metadataMatches doc then true
  else if doc.file_paths.isEmpty then false
  else fulltextMatches rp rh doc

/-- The per-tag relevant count of `group_stats_by_tag`
(`tag_env_counts`, a `defaultdict(int)` modelled as a total function
with default `0`; a duplicated tag inside one document counts twice,
as in the source loop). -/
def tag_env_counts (rp rh : Str → Except Str Str) (docs : List Doc) (tag : Str) : Nat :=
  (docs.map fun d =>
    if document_references_environment rp rh d then d.tags.count tag else 0).sum

/-- The per-tag total count of `group_stats_by_tag`
(`tag_total_counts`). -/
def tag_total_counts (docs : List Doc) (tag : Str) : Nat :=
  (docs.map fun d => d.tags.count tag).sum

/-- `group_stats_by_tag` of `analysis.py`: the pair of count mappings. -/
def group_stats_by_tag (rp rh : Str → Except Str Str) (docs : List Doc) :
    (Str → Nat) × (Str → Nat) :=
  (tag_env_counts rp rh docs, tag_total_counts docs)

/-- `filter_tags` of `analysis.py`: restrict both mappings to the filter
set; after the `setdefault` loop the key set of each output dict is
exactly the filter set, every key bound to its count (zero when absent
from the data). -/
def filter_tags (env total : Str → Nat) (fset : List Str) :
    List (Str × Nat) × List (Str × Nat) :=
  (fset.map fun t => (t, env t), fset.map fun t => (t, total t))

/-! ## Claim theorems -/

/-- C4: Strategy B never runs when Strategy A returns a non-empty
result; whenever Strategy A finds at least one file the returned list
is exactly Strategy A's matches. -/
theorem c4_strategyA_precedence (e : Entry) (fs : List FPath)
    (h : strategyA e fs ≠ []) :
    find_pdf_in_files_folder e (some fs) = strategyA e fs := by
  cases hA : strategyA e fs with
  | nil => exact absurd hA h
  | cons a l => simp [find_pdf_in_files_folder, hA]

/-- Witness for C4 at a concrete entry and root whose Strategy A result
is nonempty. -/
theorem c4_witness :
    find_pdf_in_files_folder [("file", "paper.pdf:files/A/paper.pdf:application/pdf".toList)]
      (some [["files".toList, "A".toList, "paper.pdf".toList]]) =
    strategyA [("file", "paper.pdf:files/A/paper.pdf:application/pdf".toList)]
      [["files".toList, "A".toList, "paper.pdf".toList]] :=
  c4_strategyA_precedence _ _ (by decide)

/-- C1 counterexample: an entry whose `file` field names an existing
relative path with a non-`.pdf` filename (`snapshot.html`); the claim
says the file is always included, but the result is empty. -/
theorem c1_counterexample :
    (⟨"snapshot.html".toList, "files/X/snapshot.html".toList⟩ : ZFile) ∈
        parse_zotero_file_field "snapshot.html:files/X/snapshot.html:text/html".toList
    ∧ strToPath "files/X/snapshot.html".toList ∈
        [["files".toList, "X".toList, "snapshot.html".toList]]
    ∧ find_pdf_in_files_folder
        [("file", "snapshot.html:files/X/snapshot.html:text/html".toList)]
        (some [["files".toList, "X".toList, "snapshot.html".toList]]) = [] :=
  ⟨by decide, by decide, by decide⟩

/-- C1 (amended): for every tuple of the structured file field whose
filename ends case-insensitively in `.pdf` and whose relative path
exists under the candidate root, `find_pdf_in_files_folder` includes
that path in its result. -/
theorem c1_strategyA_exact_hit (e : Entry) (fs : List FPath) (ff fn p : Str)
    (hff : eGet e "file" = some ff)
    (hmem : (⟨fn, p⟩ : ZFile) ∈ parse_zotero_file_field ff)
    (hpdf : dotPdf.isSuffixOf (toLowerStr fn) = true)
    (hex : strToPath p ∈ fs) :
    strToPath p ∈ find_pdf_in_files_folder e (some fs) := by
  have hA : strToPath p ∈ strategyA e fs := by
    unfold strategyA
    rw [hff]
    refine List.mem_flatMap.mpr ⟨⟨fn, p⟩, hmem, ?_⟩
    simp only [hpdf, if_true, if_pos hex]
    exact List.mem_singleton.mpr rfl
  cases hAeq : strategyA e fs with
  | nil => rw [hAeq] at hA; exact absurd hA (List.not_mem_nil _)
  | cons a l =>
    rw [hAeq] at hA
    simpa [find_pdf_in_files_folder, hAeq] using hA

/-- Witness for C1's amended theorem at a concrete PDF tuple. -/
theorem c1_witness :
    strToPath "files/A/paper.pdf".toList ∈
      find_pdf_in_files_folder
        [("file", "paper.pdf:files/A/paper.pdf:application/pdf".toList)]
        (some [["files".toList, "A".toList, "paper.pdf".toList]]) :=
  c1_strategyA_exact_hit _ _ _ "paper.pdf".toList "files/A/paper.pdf".toList
    rfl (by decide) (by decide) (by decide)

/-- C3 counterexample: the claimed normalized set of
`"policy, climate;energy"` contains `"policy"` and `"climate;energy"`,
but neither is produced: the semicolon has the highest priority, so the
split is on `;`. -/
theorem c3_counterexample :
    "policy".toList ∉
        extract_tags_from_entry [("keywords", "policy, climate;energy".toList)]
    ∧ "climate;energy".toList ∉
        extract_tags_from_entry [("keywords", "policy, climate;energy".toList)] :=
  ⟨by decide, by decide⟩

/-- C3 (amended): the tag field value `"policy, climate;energy"`
normalizes to exactly the tag set `{"policy, climate", "energy"}`: the
first delimiter of the fixed priority list `;`, `,`, newline, `|` that
occurs anywhere in the text is the semicolon, so the split is on `;`
and the comma inside the first token is not split on. -/
theorem c3_semicolon_priority :
    extract_tags_from_entry [("keywords", "policy, climate;energy".toList)] =
      ["energy".toList, "policy, climate".toList] := by decide

/-- C10: organizing an empty associated-file list returns the empty
list and performs no filesystem effect: no copy and no directory
creation. -/
theorem c10_empty_no_effect (e : Entry) :
    organize_pdf_files [] e = some ⟨[], [], []⟩ := rfl

/-- Witness for C10 at a concrete entry. -/
theorem c10_witness :
    organize_pdf_files [] [("title", "x".toList)] = some ⟨[], [], []⟩ :=
  c10_empty_no_effect _

/-- C2: a document is classified relevant iff some keyword occurs in a
metadata field, or, when no metadata field matches, in the concatenated
extracted full text of a nonempty associated-file list; a metadata
match never invokes the extraction oracles, and with no metadata match
and an empty file list the document is not relevant. -/
theorem c2_relevance_iff (rp rh : Str → Except Str Str) (doc : Doc) :
    (document_references_environment rp rh doc = true ↔
      (metadataMatches doc = true ∨
        (metadataMatches doc = false ∧ doc.file_paths ≠ [] ∧
          fulltextMatches rp rh doc = true)))
    ∧ (metadataMatches doc = true →
        ∀ rp' rh', document_references_environment rp' rh' doc = true)
    ∧ (metadataMatches doc = false → doc.file_paths = [] →
        document_references_environment rp rh doc = false) := by
  unfold document_references_environment
  cases hm : metadataMatches doc <;> cases hf : doc.file_paths.isEmpty <;>
    simp_all [List.isEmpty_iff]

/-- Witness for C2: a document whose title contains "carbon" is
relevant under extraction oracles that always fail. -/
theorem c2_witness :
    document_references_environment (fun _ => .error []) (fun _ => .error [])
      ⟨[("title", "Carbon capture".toList)], [], []⟩ = true :=
  (c2_relevance_iff (fun _ => .error []) (fun _ => .error []) _).2.1 (by decide) _ _

/-- C6: in the aggregation over any document sequence, every tag's
relevant count is at most its total count; a tag occurring in no
document counts zero; and after restricting to a caller-supplied filter
set, every tag of the filter appears in both outputs with its counts. -/
theorem c6_relevant_le_total (rp rh : Str → Except Str Str) (docs : List Doc)
    (fset : List Str) :
    (∀ tag, tag_env_counts rp rh docs tag ≤ tag_total_counts docs tag)
    ∧ (∀ tag, (∀ d ∈ docs, tag ∉ d.tags) →
        tag_env_counts rp rh docs tag = 0 ∧ tag_total_counts docs tag = 0)
    ∧ (∀ tag ∈ fset,
        (tag, tag_env_counts rp rh docs tag) ∈
          (filter_tags (group_stats_by_tag rp rh docs).1
            (group_stats_by_tag rp rh docs).2 fset).1
        ∧ (tag, tag_total_counts docs tag) ∈
          (filter_tags (group_stats_by_tag rp rh docs).1
            (group_stats_by_tag rp rh docs).2 fset).2) := by
  refine ⟨?_, ?_, ?_⟩
  · intro tag
    refine List.sum_le_sum ?_
    intro d _
    split
    · exact le_refl _
    · exact Nat.zero_le _
  · intro tag h
    constructor
    · refine List.sum_eq_zero ?_
      intro x hx
      obtain ⟨d, hd, rfl⟩ := List.mem_map.mp hx
      have hc : d.tags.count tag = 0 := List.count_eq_zero.mpr (h d hd)
      split <;> simp [hc]
    · refine List.sum_eq_zero ?_
      intro x hx
      obtain ⟨d, hd, rfl⟩ := List.mem_map.mp hx
      exact List.count_eq_zero.mpr (h d hd)
  · intro tag htag
    exact ⟨List.mem_map.mpr ⟨tag, htag, rfl⟩, List.mem_map.mpr ⟨tag, htag, rfl⟩⟩

/-- Witness for C6 at a one-document library. -/
theorem c6_witness :
    tag_env_counts (fun _ => .error []) (fun _ => .error [])
        [⟨[("title", "climate policy".toList)], ["State".toList], []⟩] ("State".toList)
      ≤ tag_total_counts
        [⟨[("title", "climate policy".toList)], ["State".toList], []⟩] ("State".toList) :=
  (c6_relevant_le_total (fun _ => .error []) (fun _ => .error [])
    [⟨[("title", "climate policy".toList)], ["State".toList], []⟩] []).1 ("State".toList)

/-- C5 counterexample: an entry with at least one associated file but a
present, wordless author field (here `author = ""`): the surname
computation `first_author.split()[-1]` raises `IndexError` (modelled as
`none`), so the call aborts before any file is copied — the
unconditional claim fails on this entry. -/
theorem c5_counterexample :
    first_author_of ("".toList) = none
    ∧ base_filename_of
        [("author", "".toList), ("ENTRYTYPE", "article".toList),
         ("year", "2021".toList), ("title", "T".toList)] = none
    ∧ organize_pdf_files [["files".toList, "A".toList, "p.pdf".toList]]
        [("author", "".toList), ("ENTRYTYPE", "article".toList),
         ("year", "2021".toList), ("title", "T".toList)] = none :=
  ⟨by decide, by decide, by decide⟩

/-- C5 (amended): for every entry with a nonempty associated-file list
on which the base-name computation succeeds (the author field, when
present, yields at least one word for the surname), organizing copies
exactly the given files, returns their relative target paths, creates
the directory `documents/<category>/<year-or-"unknown">`, and names a
single file `<base>.pdf` while several files get 1-based index
suffixes, with the base built by `base_filename_of` from cleaned
first-author surname, year and title; an entry with a wordless author
field instead raises before any copy. -/
theorem c5_organize_naming (e : Entry) (files : List FPath) (r : OrganizeResult)
    (hne : files ≠ []) (h : organize_pdf_files files e = some r) :
    r.copies.map Prod.fst = files
    ∧ r.organized = r.copies.map Prod.snd
    ∧ r.dirsCreated = [target_dir_of e]
    ∧ ∃ b, base_filename_of e = some b
        ∧ (files.length = 1 →
            r.organized = [target_dir_of e ++ ['/'] ++ b ++ dotPdf])
        ∧ (1 < files.length →
            r.organized = (List.range files.length).map fun i =>
              target_dir_of e ++ ['/'] ++ b ++ ['_'] ++ natStr (i + 1) ++ dotPdf) := by
  unfold organize_pdf_files at h
  rw [if_neg (fun hc => hne (List.isEmpty_iff.mp hc))] at h
  cases hb : base_filename_of e with
  | none => rw [hb] at h; exact absurd h (by simp)
  | some b =>
    rw [hb] at h
    injection h with h
    subst h
    refine ⟨?_, ?_, rfl, b, rfl, ?_, ?_⟩
    · rw [List.map_map]
      exact List.enum_map_snd files
    · rw [List.map_map, ← List.enum_map_fst files, List.map_map]
      rfl
    · intro hlen
      simp [hlen, List.append_assoc]
    · intro hlen
      have hne1 : ¬ files.length = 1 := by omega
      simp only [if_pos hlen]
      refine List.map_congr_left ?_
      intro i _
      simp [List.append_assoc]

/-- Witness for C5: the spec's example entry (`file` field
`"paper.pdf:files/ABC/paper.pdf:application/pdf"`, type `article`,
year `2021`, title `"Net Zero Pathways"`, author `"Smith, John"`)
yields `documents/journal_articles/2021/Smith_2021_Net_Zero_Pathways.pdf`
and a nonempty file list (`has_pdf = true`). -/
theorem c5_witness :
    find_pdf_in_files_folder
        [("file", "paper.pdf:files/ABC/paper.pdf:application/pdf".toList),
         ("ENTRYTYPE", "article".toList), ("year", "2021".toList),
         ("title", "Net Zero Pathways".toList), ("author", "Smith, John".toList)]
        (some [["files".toList, "ABC".toList, "paper.pdf".toList]]) =
      [["files".toList, "ABC".toList, "paper.pdf".toList]]
    ∧ organize_pdf_files [["files".toList, "ABC".toList, "paper.pdf".toList]]
        [("file", "paper.pdf:files/ABC/paper.pdf:application/pdf".toList),
         ("ENTRYTYPE", "article".toList), ("year", "2021".toList),
         ("title", "Net Zero Pathways".toList), ("author", "Smith, John".toList)] =
      some ⟨["documents/journal_articles/2021/Smith_2021_Net_Zero_Pathways.pdf".toList],
            [(["files".toList, "ABC".toList, "paper.pdf".toList],
              "documents/journal_articles/2021/Smith_2021_Net_Zero_Pathways.pdf".toList)],
            ["documents/journal_articles/2021".toList]⟩
    ∧ (⟨["documents/journal_articles/2021/Smith_2021_Net_Zero_Pathways.pdf".toList],
         [(["files".toList, "ABC".toList, "paper.pdf".toList],
           "documents/journal_articles/2021/Smith_2021_Net_Zero_Pathways.pdf".toList)],
         ["documents/journal_articles/2021".toList]⟩ : OrganizeResult).copies.map Prod.fst =
        [["files".toList, "ABC".toList, "paper.pdf".toList]]
    ∧ (⟨["documents/journal_articles/2021/Smith_2021_Net_Zero_Pathways.pdf".toList],
         [(["files".toList, "ABC".toList, "paper.pdf".toList],
           "documents/journal_articles/2021/Smith_2021_Net_Zero_Pathways.pdf".toList)],
         ["documents/journal_articles/2021".toList]⟩ : OrganizeResult).organized ≠ [] :=
  ⟨by decide, by decide,
   (c5_organize_naming
     [("file", "paper.pdf:files/ABC/paper.pdf:application/pdf".toList),
      ("ENTRYTYPE", "article".toList), ("year", "2021".toList),
      ("title", "Net Zero Pathways".toList), ("author", "Smith, John".toList)]
     [["files".toList, "ABC".toList, "paper.pdf".toList]]
     ⟨["documents/journal_articles/2021/Smith_2021_Net_Zero_Pathways.pdf".toList],
      [(["files".toList, "ABC".toList, "paper.pdf".toList],
        "documents/journal_articles/2021/Smith_2021_Net_Zero_Pathways.pdf".toList)],
      ["documents/journal_articles/2021".toList]⟩
     (by decide) (by decide)).1,
   by decide⟩

/-- Under always-failing oracles, the concatenated full text is a run
of the per-file newline separators only. -/
theorem fulltext_replicate (rp rh : Str → Except Str Str)
    (hrp : ∀ p, ∃ m, rp p = .error m) (hrh : ∀ p, ∃ m, rh p = .error m)
    (fps : List Str) :
    ∃ n, extract_fulltext_from_files rp rh fps = List.replicate n '\n' := by
  induction fps with
  | nil => exact ⟨0, rfl⟩
  | cons rel rest ih =>
    obtain ⟨n, hn⟩ := ih
    by_cases h1 : dotPdf.isSuffixOf (toLowerStr (absPathOf rel)) = true
    · obtain ⟨m, hm⟩ := hrp (absPathOf rel)
      refine ⟨n + 1, ?_⟩
      simp [extract_fulltext_from_files, h1, extract_text_from_pdf, hm, hn,
        List.replicate_succ]
    · by_cases h2 : dotHtml.isSuffixOf (toLowerStr (absPathOf rel)) = true
      · obtain ⟨m, hm⟩ := hrh (absPathOf rel)
        refine ⟨n + 1, ?_⟩
        simp [extract_fulltext_from_files, h1, h2, extract_text_from_html, hm, hn,
          List.replicate_succ]
      · refine ⟨n, ?_⟩
        simp [extract_fulltext_from_files, h1, h2, hn]

/-- A string with a character different from `c` is no substring of a
run of `c`s. -/
theorem isInfixB_replicate (kw : Str) (c : Char) (n : Nat)
    (h : ∃ x ∈ kw, x ≠ c) : isInfixB kw (List.replicate n c) = false := by
  induction n with
  | zero =>
    obtain ⟨x, hx, _⟩ := h
    cases kw with
    | nil => simp at hx
    | cons a l => rfl
  | succ n ih =>
    rw [List.replicate_succ]
    have hpre : kw.isPrefixOf (c :: List.replicate n c) = false := by
      by_contra hc
      rw [Bool.not_eq_false] at hc
      have hsub := (List.isPrefixOf_iff_prefix.mp hc).sublist.subset
      obtain ⟨x, hx, hxc⟩ := h
      have hxm := hsub hx
      rw [← List.replicate_succ] at hxm
      exact hxc (List.eq_of_mem_replicate hxm)
    simp [isInfixB, hpre, ih]

/-- C9: a failing extraction (the oracle raising) is caught inside the
per-file extractor and yields the empty string for that file; with all
extractions failing, classification still terminates with the
metadata-only verdict, so no extraction failure escapes the per-file
boundary. -/
theorem c9_extraction_failure_safe (rp rh : Str → Except Str Str) :
    (∀ p m, rp p = .error m → extract_text_from_pdf rp p = [])
    ∧ (∀ p m, rh p = .error m → extract_text_from_html rh p = [])
    ∧ (∀ doc : Doc, (∀ p, ∃ m, rp p = .error m) → (∀ p, ∃ m, rh p = .error m) →
        document_references_environment rp rh doc = metadataMatches doc) := by
  refine ⟨?_, ?_, ?_⟩
  · intro p m hm
    simp [extract_text_from_pdf, hm]
  · intro p m hm
    simp [extract_text_from_html, hm]
  · intro doc hrp hrh
    unfold document_references_environment
    cases hm : metadataMatches doc
    · cases hf : doc.file_paths.isEmpty
      · obtain ⟨n, hn⟩ := fulltext_replicate rp rh hrp hrh doc.file_paths
        have hfm : fulltextMatches rp rh doc = false := by
          unfold fulltextMatches
          rw [hn]
          have hlow : toLowerStr (List.replicate n '\n') = List.replicate n '\n' := by
            rw [toLowerStr, List.map_replicate]
            have : Char.toLower (Char.ofNat 10) = Char.ofNat 10 := by decide
            simp [this]
          rw [hlow]
          refine List.any_eq_false.mpr ?_
          intro kw hkw
          have hnl : ∃ x ∈ kw, x ≠ '\n' :=
            (by decide : ∀ kw ∈ KEYWORDS, ∃ x ∈ kw, x ≠ '\n') kw hkw
          simp [isInfixB_replicate kw '\n' n hnl]
        simp [hfm]
      · simp
    · simp

/-- Witness for C9 under a concretely failing oracle. -/
theorem c9_witness :
    extract_text_from_pdf (fun _ => Except.error []) ("f".toList) = [] :=
  (c9_extraction_failure_safe (fun _ => Except.error []) (fun _ => Except.error [])).1
    ("f".toList) [] rfl

/-- `Nat.digitChar` and `digitVal` are inverse on single digits. -/
theorem dv_digitChar : ∀ m, m < 10 → digitVal (Nat.digitChar m) = m := by decide

/-- The fuelled decimal printer appends a nonempty digit string whose
left-fold value is the printed number, whenever the fuel exceeds it. -/
theorem natStrGo_spec : ∀ (fuel n : Nat) (acc : Str), n < fuel →
    ∃ ds : Str, natStrGo fuel n acc = ds ++ acc ∧ ds ≠ [] ∧
      List.foldl (fun a c => a * 10 + digitVal c) 0 ds = n := by
  intro fuel
  induction fuel with
  | zero => intro n acc h; omega
  | succ fuel ih =>
    intro n acc _h
    by_cases h10 : n < 10
    · refine ⟨[Nat.digitChar (n % 10)], ?_, by simp, ?_⟩
      · simp [natStrGo, h10]
      · simp only [List.foldl, Nat.zero_mul, Nat.zero_add]
        rw [Nat.mod_eq_of_lt h10]
        exact dv_digitChar n h10
    · have hdn : n / 10 < n := Nat.div_lt_self (by omega) (by omega)
      have hdiv : n / 10 < fuel := by omega
      obtain ⟨ds, hds, hne, hval⟩ := ih (n / 10) (Nat.digitChar (n % 10) :: acc) hdiv
      refine ⟨ds ++ [Nat.digitChar (n % 10)], ?_, by simp, ?_⟩
      · simp only [natStrGo, h10, if_false]
        rw [hds, List.append_assoc]
        rfl
      · rw [List.foldl_append, hval]
        simp only [List.foldl]
        rw [dv_digitChar (n % 10) (Nat.mod_lt n (by omega))]
        omega

/-- `parseNat` inverts `natStr`. -/
theorem parseNat_natStr (n : Nat) : parseNat (natStr n) = n := by
  obtain ⟨ds, hds, _, hval⟩ := natStrGo_spec (n + 1) n [] (Nat.lt_succ_self n)
  unfold parseNat natStr
  rw [hds, List.append_nil]
  exact hval

/-- Distinct numbers print to distinct decimal strings. -/
theorem natStr_inj {a b : Nat} (h : natStr a = natStr b) : a = b := by
  have hp := congrArg parseNat h
  rwa [parseNat_natStr, parseNat_natStr] at hp

/-- The id list is as long as the entry list. -/
theorem docIdsFrom_length (k : Nat) (l : List Entry) :
    (docIdsFrom k l).length = l.length := by
  induction l generalizing k with
  | nil => rfl
  | cons e rest ih => simp [docIdsFrom, ih]

/-- The id list of a whole run is as long as its entry list. -/
theorem docIds_length (es : List Entry) : (docIds es).length = es.length :=
  docIdsFrom_length 0 es

/-- The id at position `i` is `idOf` of the entry there, offset by the
starting counter. -/
theorem docIdsFrom_get (k : Nat) (l : List Entry) (i : Nat)
    (h1 : i < l.length) (h2 : i < (docIdsFrom k l).length) :
    (docIdsFrom k l).get ⟨i, h2⟩ = idOf (k + i) (l.get ⟨i, h1⟩) := by
  induction l generalizing k i with
  | nil => simp at h1
  | cons e rest ih =>
    cases i with
    | zero => rfl
    | succ i =>
      have h1a : i < rest.length := by simpa using h1
      have h2a : i < (docIdsFrom (k + 1) rest).length := by
        rw [docIdsFrom_length]; exact h1a
      have hrec := ih (k + 1) i h1a h2a
      have hk : k + 1 + i = k + (i + 1) := by omega
      rw [hk] at hrec
      exact hrec

/-- C7 counterexample: two entries carrying the same explicit `ID`
produce the same record identifier twice, so identifiers are not
unconditionally unique across the library. -/
theorem c7_counterexample :
    docIds [[("ID", "x".toList)], [("ID", "x".toList)]] = ["x".toList, "x".toList]
    ∧ ¬ (docIds [[("ID", "x".toList)], [("ID", "x".toList)]]).Nodup :=
  ⟨by decide, by decide⟩

/-- C7 (amended): record identifiers are pairwise distinct provided the
entries' explicit `ID`s are pairwise distinct and no explicit `ID`
starts with the synthetic prefix `doc_`; moreover an entry lacking an
`ID` receives exactly the positional synthetic identifier `doc_<index>`
(and those are pairwise distinct by injectivity of decimal printing). -/
theorem c7_unique_ids (es : List Entry)
    (h1 : ∀ i j : Fin es.length, i ≠ j → eGet (es.get i) "ID" ≠ none →
          eGet (es.get i) "ID" ≠ eGet (es.get j) "ID")
    (h2 : ∀ i : Fin es.length,
          Option.all (fun s => !(("doc_".toList).isPrefixOf s)) (eGet (es.get i) "ID") = true) :
    (docIds es).Nodup ∧
    ∀ (i : Nat) (hi : i < es.length) (hi2 : i < (docIds es).length),
      eGet (es.get ⟨i, hi⟩) "ID" = none →
      (docIds es).get ⟨i, hi2⟩ = "doc_".toList ++ natStr i := by
  have hpre : ∀ n : Nat, ("doc_".toList).isPrefixOf ("doc_".toList ++ natStr n) = true :=
    fun n => List.isPrefixOf_iff_prefix.mpr (List.prefix_append _ _)
  constructor
  · rw [List.nodup_iff_injective_get]
    rintro ⟨i, hi⟩ ⟨j, hj⟩ hij
    have hi' : i < es.length := by rwa [docIds_length] at hi
    have hj' : j < es.length := by rwa [docIds_length] at hj
    have hij2 : idOf (0 + i) (es.get ⟨i, hi'⟩) = idOf (0 + j) (es.get ⟨j, hj'⟩) := by
      rw [← docIdsFrom_get 0 es i hi' hi, ← docIdsFrom_get 0 es j hj' hj]
      exact hij
    simp only [Nat.zero_add] at hij2
    clear hij
    rename' hij2 => hij
    suffices hsuff : i = j by simpa using hsuff
    cases hIi : eGet (es.get ⟨i, hi'⟩) "ID" with
    | some s =>
      cases hIj : eGet (es.get ⟨j, hj'⟩) "ID" with
      | some u =>
        by_cases hij' : i = j
        · exact hij'
        · exfalso
          have hne : (⟨i, hi'⟩ : Fin es.length) ≠ ⟨j, hj'⟩ := by
            simpa [Fin.ext_iff] using hij'
          have hnn : eGet (es.get ⟨i, hi'⟩) "ID" ≠ none := fun hc => by
            rw [hIi] at hc; exact Option.noConfusion hc
          have heq : eGet (es.get ⟨i, hi'⟩) "ID" = eGet (es.get ⟨j, hj'⟩) "ID" := by
            rw [hIi, hIj]
            simp only [idOf, hIi, hIj] at hij
            rw [hij]
          exact h1 ⟨i, hi'⟩ ⟨j, hj'⟩ hne hnn heq
      | none =>
        exfalso
        simp only [idOf, hIi, hIj] at hij
        have hx := h2 ⟨i, hi'⟩
        rw [hIi] at hx
        simp only [Option.all] at hx
        rw [hij, hpre j] at hx
        simp at hx
    | none =>
      cases hIj : eGet (es.get ⟨j, hj'⟩) "ID" with
      | some u =>
        exfalso
        simp only [idOf, hIi, hIj] at hij
        have hx := h2 ⟨j, hj'⟩
        rw [hIj] at hx
        simp only [Option.all] at hx
        rw [← hij, hpre i] at hx
        simp at hx
      | none =>
        simp only [idOf, hIi, hIj] at hij
        exact natStr_inj (List.append_cancel_left hij)
  · intro i hi hi2 hnone
    have e1 : (docIds es).get ⟨i, hi2⟩ = idOf (0 + i) (es.get ⟨i, hi⟩) :=
      docIdsFrom_get 0 es i hi hi2
    rw [e1]
    simp only [Nat.zero_add]
    simp only [idOf, hnone]

/-- Witness for C7's amended theorem: one explicit and one missing
identifier give a duplicate-free id list. -/
theorem c7_witness :
    (docIds [[("ID", "a".toList)], []]).Nodup :=
  (c7_unique_ids [[("ID", "a".toList)], []] (by decide) (by decide)).1

/-- A split never produces no pieces. -/
theorem pySplit_ne_nil (d : Char) (s : Str) : pySplit d s ≠ [] := by
  induction s with
  | nil => simp [pySplit]
  | cons c rest ih =>
    rw [pySplit]
    split
    · simp
    · cases h : pySplit d rest with
      | nil => exact absurd h ih
      | cons p ps => simp [h]

/-- No piece of a split contains the separator. -/
theorem not_mem_of_mem_pySplit (d : Char) (s : Str) :
    ∀ p ∈ pySplit d s, d ∉ p := by
  induction s with
  | nil =>
    intro p hp
    rw [List.mem_singleton.mp hp]
    simp
  | cons c rest ih =>
    intro p hp
    rw [pySplit] at hp
    split at hp
    · rcases List.mem_cons.mp hp with hp | hp
      · rw [hp]; simp
      · exact ih p hp
    · next hcd =>
      cases h : pySplit d rest with
      | nil => exact absurd h (pySplit_ne_nil d rest)
      | cons q qs =>
        rw [h] at hp
        rcases List.mem_cons.mp hp with hp | hp
        · rw [hp]
          intro hm
          rcases List.mem_cons.mp hm with hm | hm
          · exact hcd hm.symm
          · exact ih q (by rw [h]; exact List.mem_cons_self q qs) hm
        · exact ih p (by rw [h]; exact List.mem_cons_of_mem q hp)

/-- Every character of a piece of a split occurs in the split string. -/
theorem mem_of_mem_pySplit (d : Char) (s : Str) :
    ∀ p ∈ pySplit d s, ∀ c ∈ p, c ∈ s := by
  induction s with
  | nil =>
    intro p hp
    rw [List.mem_singleton.mp hp]
    simp
  | cons a rest ih =>
    intro p hp c hc
    rw [pySplit] at hp
    split at hp
    · rcases List.mem_cons.mp hp with hp | hp
      · rw [hp] at hc; simp at hc
      · exact List.mem_cons_of_mem a (ih p hp c hc)
    · cases h : pySplit d rest with
      | nil => exact absurd h (pySplit_ne_nil d rest)
      | cons q qs =>
        rw [h] at hp
        rcases List.mem_cons.mp hp with hp | hp
        · rw [hp] at hc
          rcases List.mem_cons.mp hc with hc | hc
          · rw [hc]; exact List.mem_cons_self a rest
          · exact List.mem_cons_of_mem a
              (ih q (by rw [h]; exact List.mem_cons_self q qs) c hc)
        · exact List.mem_cons_of_mem a
            (ih p (by rw [h]; exact List.mem_cons_of_mem q hp) c hc)

/-- Splitting a string not containing the separator gives one piece. -/
theorem pySplit_of_not_mem (d : Char) (s : Str) (h : d ∉ s) : pySplit d s = [s] := by
  induction s with
  | nil => rfl
  | cons c rest ih =>
    have hcd : ¬ c = d := fun hc => h (by rw [hc]; exact List.mem_cons_self d rest)
    have hrest : d ∉ rest := fun hc => h (List.mem_cons_of_mem c hc)
    rw [pySplit, if_neg hcd, ih hrest]

/-- Splitting a string of the form `x ++ d :: r` with `d ∉ x` peels off
`x` as the first piece. -/
theorem pySplit_append (d : Char) (x r : Str) (hx : d ∉ x) :
    pySplit d (x ++ d :: r) = x :: pySplit d r := by
  induction x with
  | nil => simp [pySplit]
  | cons c x' ih =>
    have hcd : ¬ c = d := fun hc => hx (by rw [hc]; exact List.mem_cons_self d x')
    have hx' : d ∉ x' := fun hc => hx (List.mem_cons_of_mem c hc)
    rw [List.cons_append, pySplit, if_neg hcd, ih hx']

/-- Splitting a `d`-join of `d`-free pieces recovers the pieces. -/
theorem pySplit_joinWith (d : Char) (ts : List Str) (hne : ts ≠ [])
    (h : ∀ x ∈ ts, d ∉ x) : pySplit d (joinWith d ts) = ts := by
  induction ts with
  | nil => exact absurd rfl hne
  | cons a ts ih =>
    cases ts with
    | nil =>
      show pySplit d (joinWith d [a]) = [a]
      rw [joinWith]
      exact pySplit_of_not_mem d a (h a (List.mem_cons_self a []))
    | cons b rest =>
      rw [show joinWith d (a :: b :: rest) = a ++ d :: joinWith d (b :: rest) from rfl]
      rw [pySplit_append d a _ (h a (List.mem_cons_self a _))]
      rw [ih (by simp) (fun x hx => h x (List.mem_cons_of_mem a hx))]

/-- `dropWhile` is idempotent. -/
theorem dropWhile_idem (p : Char → Bool) (l : Str) :
    (l.dropWhile p).dropWhile p = l.dropWhile p := by
  induction l with
  | nil => rfl
  | cons c rest ih =>
    rw [List.dropWhile_cons]
    split
    · exact ih
    · next h => rw [List.dropWhile_cons, if_neg h]

/-- `dropWhile` passes over a kept last element. -/
theorem dropWhile_append_keep (p : Char → Bool) (c : Char) (hc : p c = false)
    (w : Str) : (w ++ [c]).dropWhile p = w.dropWhile p ++ [c] := by
  induction w with
  | nil => simp [List.dropWhile_cons, hc]
  | cons a w' ih =>
    rw [List.cons_append, List.dropWhile_cons, List.dropWhile_cons]
    split
    · exact ih
    · rfl

/-- Front-trimming a string whose front is already trimmed, after
back-trimming it, changes nothing. -/
theorem dropWhile_of_back_trimmed (p : Char → Bool) (l : Str)
    (h : l.dropWhile p = l) :
    ((l.reverse.dropWhile p).reverse).dropWhile p = (l.reverse.dropWhile p).reverse := by
  cases l with
  | nil => rfl
  | cons c rest =>
    have hc : p c = false := by
      rw [List.dropWhile_cons] at h
      by_contra hb
      rw [Bool.not_eq_false] at hb
      rw [if_pos hb] at h
      have := congrArg List.length h
      have hle : (rest.dropWhile p).length ≤ rest.length := by
        have := (List.dropWhile_sublist (l := rest) p).length_le
        exact this
      simp at this
      omega
    rw [show (c :: rest).reverse = rest.reverse ++ [c] from by simp]
    rw [dropWhile_append_keep p c hc]
    rw [List.reverse_append]
    simp only [List.reverse_singleton, List.singleton_append]
    rw [List.dropWhile_cons]
    simp [hc]

/-- `pyStrip` is idempotent. -/
theorem pyStrip_idem (s : Str) : pyStrip (pyStrip s) = pyStrip s := by
  have hfront : (s.dropWhile isWs).dropWhile isWs = s.dropWhile isWs :=
    dropWhile_idem isWs s
  show pyStrip (((s.dropWhile isWs).reverse.dropWhile isWs).reverse) = _
  unfold pyStrip
  rw [dropWhile_of_back_trimmed isWs (s.dropWhile isWs) hfront]
  rw [List.reverse_reverse]
  rw [dropWhile_idem]

/-- Every character of a stripped string occurs in the original. -/
theorem mem_of_mem_pyStrip (s : Str) (c : Char) (h : c ∈ pyStrip s) : c ∈ s := by
  unfold pyStrip at h
  rw [List.mem_reverse] at h
  have h2 := (List.dropWhile_sublist (l := (s.dropWhile isWs).reverse) isWs).subset h
  rw [List.mem_reverse] at h2
  exact (List.dropWhile_sublist (l := s) isWs).subset h2

/-- `lexLe` is total. -/
theorem lexLe_total : ∀ a b : Str, lexLe a b = true ∨ lexLe b a = true := by
  intro a
  induction a with
  | nil => intro b; left; rfl
  | cons x xs ih =>
    intro b
    cases b with
    | nil => right; rfl
    | cons y ys =>
      rcases lt_trichotomy x y with h | h | h
      · left; simp [lexLe, h]
      · subst h
        simpa [lexLe, lt_irrefl] using ih ys
      · right; simp [lexLe, h]

/-- `lexLe` is transitive. -/
theorem lexLe_trans : ∀ a b c : Str,
    lexLe a b = true → lexLe b c = true → lexLe a c = true := by
  intro a
  induction a with
  | nil => intro b c _ _; rfl
  | cons x xs ih =>
    intro b c hab hbc
    cases b with
    | nil => simp [lexLe] at hab
    | cons y ys =>
      cases c with
      | nil => simp [lexLe] at hbc
      | cons z zs =>
        rcases lt_trichotomy x y with h1 | h1 | h1
        · rcases lt_trichotomy y z with h2 | h2 | h2
          · simp [lexLe, lt_trans h1 h2]
          · subst h2; simp [lexLe, h1]
          · simp [lexLe, lt_asymm h2, h2] at hbc
        · subst h1
          rcases lt_trichotomy x z with h2 | h2 | h2
          · simp [lexLe, h2]
          · subst h2
            simp only [lexLe, lt_irrefl, if_false] at hab hbc ⊢
            exact ih ys zs hab hbc
          · simp [lexLe, lt_asymm h2, h2] at hbc
        · simp [lexLe, lt_asymm h1, h1] at hab

/-- `sortTags` sorts. -/
theorem sortTags_sorted (l : List Str) : List.Sorted tagLe (sortTags l) :=
  @List.sorted_insertionSort Str tagLe _ ⟨lexLe_total⟩
    ⟨fun _ _ _ => lexLe_trans _ _ _⟩ l

/-- `sortTags` permutes. -/
theorem sortTags_perm (l : List Str) : (sortTags l).Perm l :=
  List.perm_insertionSort tagLe l

/-- Every tag a field yields is stripped, nonempty, and free of the
semicolon (the highest-priority delimiter). -/
theorem tagsFromField_tags (t : Str) :
    ∀ tag ∈ tagsFromField t, pyStrip tag = tag ∧ tag ≠ [] ∧ ';' ∉ tag := by
  intro tag h
  unfold tagsFromField at h
  cases hf : delimiters.find? (fun d => t.contains d) with
  | none =>
    rw [hf] at h
    have h2 : tag ∈ if pyStrip t ≠ [] then [pyStrip t] else [] := h
    by_cases hne : pyStrip t ≠ []
    · rw [if_pos hne] at h2
      rw [List.mem_singleton.mp h2]
      refine ⟨pyStrip_idem t, hne, ?_⟩
      intro hm
      have hts : ';' ∈ t := mem_of_mem_pyStrip t ';' hm
      have hno := List.find?_eq_none.mp hf ';' (by simp [delimiters])
      exact hno (List.elem_iff.mpr hts)
    · rw [if_neg hne] at h2
      simp at h2
  | some d =>
    rw [hf] at h
    have h2 : tag ∈ ((pySplit d t).map pyStrip).filter (fun x => decide (x ≠ [])) := h
    rw [List.mem_filter] at h2
    obtain ⟨hmem, hne⟩ := h2
    rw [List.mem_map] at hmem
    obtain ⟨x, hx, rfl⟩ := hmem
    refine ⟨pyStrip_idem x, by simpa using hne, ?_⟩
    intro hm
    have hmx : ';' ∈ x := mem_of_mem_pyStrip x ';' hm
    by_cases hd : d = ';'
    · subst hd
      exact not_mem_of_mem_pySplit ';' t x hx hmx
    · have hts : ';' ∈ t := mem_of_mem_pySplit d t x hx ';' hmx
      have hc : t.contains ';' = true := List.elem_iff.mpr hts
      have hfind : List.find? (fun d => t.contains d) [';', ',', '\n', '|'] = some d := hf
      rw [List.find?_cons_of_pos _ hc] at hfind
      exact hd (Option.some.inj hfind).symm

/-- The normalized tag list of any entry: every tag is stripped,
nonempty and semicolon-free, and the list is duplicate-free and
sorted. -/
theorem extract_tags_spec (e : Entry) :
    (∀ tag ∈ extract_tags_from_entry e, pyStrip tag = tag ∧ tag ≠ [] ∧ ';' ∉ tag)
    ∧ (extract_tags_from_entry e).Nodup
    ∧ List.Sorted tagLe (extract_tags_from_entry e) := by
  refine ⟨?_, ?_, ?_⟩
  · intro tag htag
    unfold extract_tags_from_entry at htag
    have h1 : tag ∈ (tag_fields.flatMap fun f =>
        match eGet e f with
        | some t => tagsFromField t
        | none => []).dedup := ((sortTags_perm _).mem_iff).mp htag
    rw [List.mem_dedup, List.mem_flatMap] at h1
    obtain ⟨f, _, hmem⟩ := h1
    cases hef : eGet e f with
    | none => rw [hef] at hmem; simp at hmem
    | some t =>
      rw [hef] at hmem
      exact tagsFromField_tags t tag hmem
  · exact ((sortTags_perm _).nodup_iff).mpr (List.nodup_dedup _)
  · exact sortTags_sorted _

/-- Splitting the semicolon-join of a normalized tag list and cleaning
the pieces gives the list back. -/
theorem tagsFromField_joinWith (ts : List Str) (hne2 : 2 ≤ ts.length)
    (hP : ∀ tag ∈ ts, pyStrip tag = tag ∧ tag ≠ [] ∧ ';' ∉ tag) :
    tagsFromField (joinWith ';' ts) = ts := by
  rcases ts with _ | ⟨a, _ | ⟨b, rest⟩⟩
  · simp at hne2
  · simp at hne2
  · have hj : joinWith ';' (a :: b :: rest) = a ++ ';' :: joinWith ';' (b :: rest) := rfl
    have hsc : ';' ∈ joinWith ';' (a :: b :: rest) := by
      rw [hj]
      exact List.mem_append_right a (List.mem_cons_self ';' _)
    have hcont : (joinWith ';' (a :: b :: rest)).contains ';' = true :=
      List.elem_iff.mpr hsc
    unfold tagsFromField
    rw [show delimiters = [';', ',', '\n', '|'] from rfl]
    rw [List.find?_cons_of_pos _ hcont]
    show ((pySplit ';' (joinWith ';' (a :: b :: rest))).map pyStrip).filter
        (fun x => decide (x ≠ [])) = a :: b :: rest
    rw [pySplit_joinWith ';' (a :: b :: rest) (by simp)
      (fun x hx => (hP x hx).2.2)]
    rw [List.map_congr_left (fun x hx => (hP x hx).1), List.map_id']
    rw [List.filter_eq_self.mpr (fun x hx => by
      simpa using (hP x hx).2.1)]

/-- Extracting tags from an entry holding a single `keywords` field
reduces to that field's tags. -/
theorem extract_single_field (v : Str) :
    extract_tags_from_entry [("keywords", v)] = sortTags (tagsFromField v).dedup := by
  have h1 : eGet [("keywords", v)] "keywords" = some v := rfl
  have h2 : eGet [("keywords", v)] "mendeley-tags" = none := rfl
  have h3 : eGet [("keywords", v)] "tags" = none := rfl
  have h4 : eGet [("keywords", v)] "annote" = none := rfl
  unfold extract_tags_from_entry
  simp only [tag_fields, List.flatMap_cons, List.flatMap_nil, h1, h2, h3, h4,
    List.append_nil]

/-- Re-normalizing a normalized tag list (presented back as a single
semicolon-joined `keywords` field) gives the list back, except in the
singleton-with-embedded-delimiter case excluded by `hsingle`. -/
theorem renorm_tags_eq (ts : List Str)
    (hP : ∀ tag ∈ ts, pyStrip tag = tag ∧ tag ≠ [] ∧ ';' ∉ tag)
    (hnd : ts.Nodup) (hs : List.Sorted tagLe ts)
    (hsingle : ts.length = 1 → ∀ tag ∈ ts, ∀ d ∈ delimiters, d ∉ tag) :
    extract_tags_from_entry [("keywords", joinTags ts)] = ts := by
  rw [show joinTags ts = joinWith ';' ts from rfl]
  rw [extract_single_field]
  rcases ts with _ | ⟨a, _ | ⟨b, rest⟩⟩
  · decide
  · have hnotags : ∀ d ∈ delimiters, d ∉ a :=
      hsingle rfl a (List.mem_cons_self a [])
    obtain ⟨hstrip, hane, -⟩ := hP a (List.mem_cons_self a [])
    have hfield : joinWith ';' [a] = a := rfl
    rw [hfield]
    have hfind : delimiters.find? (fun d => a.contains d) = none := by
      rw [List.find?_eq_none]
      intro d hd
      simp only [Bool.not_eq_true]
      rw [Bool.eq_false_iff]
      intro hc
      exact hnotags d hd (List.elem_iff.mp hc)
    unfold tagsFromField
    rw [hfind]
    show sortTags (if pyStrip a ≠ [] then [pyStrip a] else []).dedup = [a]
    rw [hstrip, if_pos hane]
    rw [List.Nodup.dedup (List.nodup_singleton a)]
    exact List.Sorted.insertionSort_eq (List.sorted_singleton a)
  · rw [tagsFromField_joinWith (a :: b :: rest) (by simp) hP]
    rw [List.Nodup.dedup hnd]
    exact List.Sorted.insertionSort_eq hs

/-- C8 counterexample: the entry with tag field `"a,b;"` normalizes to
the singleton `{"a,b"}`; presenting that set back as a tag field and
re-normalizing splits on the embedded comma, giving `{"a", "b"}`. -/
theorem c8_counterexample :
    extract_tags_from_entry [("keywords", "a,b;".toList)] = ["a,b".toList]
    ∧ extract_tags_from_entry [("keywords",
        joinTags (extract_tags_from_entry [("keywords", "a,b;".toList)]))] =
      ["a".toList, "b".toList]
    ∧ extract_tags_from_entry [("keywords",
        joinTags (extract_tags_from_entry [("keywords", "a,b;".toList)]))] ≠
      extract_tags_from_entry [("keywords", "a,b;".toList)] :=
  ⟨by decide, by decide, by decide⟩

/-- C8 (amended): tag normalization is idempotent for every entry,
except when the normalized set is a singleton whose tag still contains
a delimiter character (then re-normalizing splits it): re-normalizing
the normalized tags, presented back as one semicolon-joined tag field,
yields the same tag list. -/
theorem c8_idempotent (e : Entry)
    (hsingle : (extract_tags_from_entry e).length = 1 →
      ∀ tag ∈ extract_tags_from_entry e, ∀ d ∈ delimiters, d ∉ tag) :
    extract_tags_from_entry [("keywords", joinTags (extract_tags_from_entry e))] =
      extract_tags_from_entry e := by
  obtain ⟨hP, hnd, hs⟩ := extract_tags_spec e
  exact renorm_tags_eq _ hP hnd hs hsingle

/-- Witness for C8's amended theorem at a two-tag entry. -/
theorem c8_witness :
    extract_tags_from_entry [("keywords",
      joinTags (extract_tags_from_entry [("keywords", "alpha;beta".toList)]))] =
    extract_tags_from_entry [("keywords", "alpha;beta".toList)] :=
  c8_idempotent [("keywords", "alpha;beta".toList)] (by decide)
